import Mathlib

set_option linter.unusedSectionVars false
set_option linter.unusedVariables false

/-!
Verification development for the `kvfifo<K, V>` container (src/kvfifo.h).

The container keeps two structures behind `shared_ptr`s:
  * `B` : `std::list<std::pair<K, V>>` — the Sequence Store, global FIFO order;
  * `A` : `std::map<K, std::list<list_ptr_t>>` — the Key Index, mapping each key
    to the list of list-iterators (handles) of that key's entries, in sequence order;
plus a `must_copy` flag driving the copy-on-write discipline.

We embed the logical state shallowly: list iterators (stable node handles) are
modelled as unique natural-number node ids carried by each sequence entry, and
`std::map` is modelled as a key-sorted association list.  Undefined behaviour of
the C++ (erasing through an invalid iterator, `front()`/`pop_front()` on an
empty `std::list`) is made explicit as an `undef` error outcome.
-/

namespace KvModel

variable {K V : Type} [LinearOrder K] [DecidableEq V]

/-- One Sequence Store node: `nid` is the stable handle (list-iterator identity)
of the node, `key`/`val` the stored pair. -/
structure Entry (K V : Type) where
  nid : Nat
  key : K
  val : V
deriving DecidableEq, Repr

/-- The logical container state `(B, A, next id)`: `seq` embeds the
`std::list<std::pair<K,V>> B` (each node tagged with its handle), `idx` embeds
the `std::map<K, std::list<list_ptr_t>> A` as a key-sorted association list of
buckets of handles, and `nextId` is the next fresh handle. -/
structure KVState (K V : Type) where
  seq : List (Entry K V)
  idx : List (K × List Nat)
  nextId : Nat
deriving DecidableEq, Repr

/-- `A->find(k)` / `A->contains(k)`: lookup of a bucket in the association list. -/
def mapFind? : List (K × List Nat) → K → Option (List Nat)
  | [], _ => none
  | (k2, b) :: rest, k => if k = k2 then some b else mapFind? rest k

/-- `A->contains(k)`. -/
def mapContains (idx : List (K × List Nat)) (k : K) : Bool :=
  (mapFind? idx k).isSome

/-- `(*A)[k].emplace_back(h)`: `operator[]` inserts an empty bucket at the
key-sorted position when `k` is absent, then the handle is appended. -/
def mapInsertHandle : List (K × List Nat) → K → Nat → List (K × List Nat)
  | [], k, h => [(k, [h])]
  | (k2, b) :: rest, k, h =>
    if k < k2 then (k, [h]) :: (k2, b) :: rest
    else if k = k2 then (k2, b ++ [h]) :: rest
    else (k2, b) :: mapInsertHandle rest k h

/-- `A->erase(k)`: removes the bucket of `k` (if present). -/
def mapErase : List (K × List Nat) → K → List (K × List Nat)
  | [], _ => []
  | (k2, b) :: rest, k => if k = k2 then rest else (k2, b) :: mapErase rest k

/-- In-place replacement of the bucket of `k` (models mutating the bucket
object obtained by reference from `(*A)[k]`). -/
def mapSet : List (K × List Nat) → K → List Nat → List (K × List Nat)
  | [], _, _ => []
  | (k2, b) :: rest, k, nb => if k = k2 then (k2, nb) :: rest else (k2, b) :: mapSet rest k nb

/-- The bucket the Key Index must hold for key `k`: the handles of the
entries of `k`, in Sequence Store order. -/
def bucketSpec (seq : List (Entry K V)) (k : K) : List Nat :=
  (seq.filter (fun e => decide (e.key = k))).map Entry.nid

/-- `kvfifo()`: both structures empty. -/
def KVState.emptyState (K V : Type) : KVState K V := ⟨[], [], 0⟩

/-- `push(key, val)` after the copy-on-write step: `B->emplace_back(key, val)`
then `(*A)[key].emplace_back(std::prev(B->end()))`. -/
def pushOp (s : KVState K V) (k : K) (v : V) : KVState K V :=
  { seq := s.seq ++ [⟨s.nextId, k, v⟩]
    idx := mapInsertHandle s.idx k s.nextId
    nextId := s.nextId + 1 }

/-- Error outcomes: `empty` and `keyNotFound` are the two
`std::invalid_argument` throws; `undef` marks executions that are undefined
behaviour in the C++ (invalid-iterator erase, front/pop of an empty list). -/
inductive KErr where
  | emptyErr : KErr
  | keyNotFound : KErr
  | undef : KErr
deriving DecidableEq, Repr

/-- `pop()`: throws when `B` is empty; otherwise removes the front entry,
pops the front handle of its key's bucket (`(*A)[key]` — undefined if the
bucket is missing or empty), and erases the key when the bucket empties. -/
def popOp (s : KVState K V) : Except KErr (KVState K V) :=
  match s.seq with
  | [] => .error .emptyErr
  | e :: rest =>
    match mapFind? s.idx e.key with
    | none => .error .undef
    | some [] => .error .undef
    | some (_ :: bt) =>
      .ok ⟨rest, if bt = [] then mapErase s.idx e.key else mapSet s.idx e.key bt, s.nextId⟩

/-- Removal of the first node carrying handle `h` (`B->erase(it)`). -/
def eraseNid : List (Entry K V) → Nat → List (Entry K V)
  | [], _ => []
  | e :: rest, h => if e.nid = h then rest else e :: eraseNid rest h

/-- Lookup of the node carrying handle `h` (validity of the iterator). -/
def findNid? : List (Entry K V) → Nat → Option (Entry K V)
  | [], _ => none
  | e :: rest, h => if e.nid = h then some e else findNid? rest h

/-- `pop(key)`: throws `keyNotFound` iff `!A->contains(key)`; otherwise
`B->erase(bucket.front())` and `bucket.pop_front()`.  Note: the emptied
bucket is NOT erased from the index (contrast with `popOp`), and
`bucket.front()` on an empty bucket is undefined behaviour. -/
def popKeyOp (s : KVState K V) (k : K) : Except KErr (KVState K V) :=
  match mapFind? s.idx k with
  | none => .error .keyNotFound
  | some [] => .error .undef
  | some (h :: bt) =>
    match findNid? s.seq h with
    | none => .error .undef
    | some _ => .ok ⟨eraseNid s.seq h, mapSet s.idx k bt, s.nextId⟩

/-- `B->splice(B->end(), *B, it)`: relocates the node with handle `h` to the
back, keeping every other node in place; undefined if the handle is dead. -/
def spliceToEnd? (seq : List (Entry K V)) (h : Nat) : Option (List (Entry K V)) :=
  match findNid? seq h with
  | none => none
  | some e => some (eraseNid seq h ++ [e])

/-- The `for (auto it : bucket) B->splice(B->end(), *B, it);` loop. -/
def spliceAll? : List (Entry K V) → List Nat → Option (List (Entry K V))
  | seq, [] => some seq
  | seq, h :: hs =>
    match spliceToEnd? seq h with
    | none => none
    | some seq2 => spliceAll? seq2 hs

/-- `move_to_back(key)`: throws `keyNotFound` iff `!A->contains(key)`;
otherwise splices every handle of the bucket, in bucket order, to the back.
The index is left untouched. -/
def moveToBackOp (s : KVState K V) (k : K) : Except KErr (KVState K V) :=
  match mapFind? s.idx k with
  | none => .error .keyNotFound
  | some bucket =>
    match spliceAll? s.seq bucket with
    | none => .error .undef
    | some seq2 => .ok ⟨seq2, s.idx, s.nextId⟩

/-- `clear()`: `A->clear(); B->clear();`. -/
def clearOp (s : KVState K V) : KVState K V := ⟨[], [], s.nextId⟩

/-- `push` iterated over a list of pairs. -/
def pushAll (s : KVState K V) (l : List (K × V)) : KVState K V :=
  l.foldl (fun s2 kv => pushOp s2 kv.1 kv.2) s

/-- `copy()`'s rebuild: a fresh container filled by pushing every `(key, val)`
of the current sequence, in sequence order. -/
def rebuild (s : KVState K V) : KVState K V :=
  pushAll (KVState.emptyState K V) (s.seq.map (fun e => (e.key, e.val)))

/-! ### Observables -/

/-- The observable entry sequence: the `(key, value)` pairs of `B` in order. -/
def obsEntries (s : KVState K V) : List (K × V) :=
  s.seq.map (fun e => (e.key, e.val))

/-- `size()`. -/
def sizeOp (s : KVState K V) : Nat := s.seq.length

/-- `front()` (observable part; `none` when the container is empty). -/
def frontOp (s : KVState K V) : Option (K × V) := (obsEntries s).head?

/-- `back()` (observable part). -/
def backOp (s : KVState K V) : Option (K × V) := (obsEntries s).getLast?

/-- `count(key)`: bucket size if present, else 0. -/
def countOp (s : KVState K V) (k : K) : Nat :=
  match mapFind? s.idx k with
  | none => 0
  | some b => b.length

/-- The keys visited by iterating `k_begin()` to `k_end()`: the keys of the
`std::map` in its (key-sorted) order. -/
def kIterKeys (s : KVState K V) : List K := s.idx.map Prod.fst

/-- `sum(count(k) for k in key_iterator)`. -/
def sumCounts (s : KVState K V) : Nat :=
  ((kIterKeys s).map (fun k => countOp s k)).sum

/-! ### Well-formedness

The representation invariant actually maintained by the code.  Note that it
tolerates empty buckets (which `popKeyOp` creates): a bucket, when present,
always lists exactly the live handles of its key in sequence order, but a key
whose last entry was removed by `pop(key)` stays in the index with `[]`. -/

/-- Representation invariant of a `kvfifo` state. -/
def WF (s : KVState K V) : Prop :=
  List.Pairwise (· < ·) (s.idx.map Prod.fst) ∧
  (∀ kb ∈ s.idx, kb.2 = bucketSpec s.seq kb.1) ∧
  (∀ e ∈ s.seq, mapContains s.idx e.key = true) ∧
  (∀ e ∈ s.seq, e.nid < s.nextId) ∧
  (s.seq.map Entry.nid).Nodup

instance (s : KVState K V) : Decidable (WF s) := by
  unfold WF; infer_instance

/-! ### Association-map lemmas -/

theorem mapFind?_eq_none_iff {idx : List (K × List Nat)} {k : K} :
    mapFind? idx k = none ↔ k ∉ idx.map Prod.fst := by
  induction idx with
  | nil => simp [mapFind?]
  | cons kb rest ih =>
    obtain ⟨k2, b⟩ := kb
    by_cases h : k = k2 <;> simp [mapFind?, h, ih]

theorem mem_of_mapFind?_eq_some {idx : List (K × List Nat)} {k : K} {b : List Nat}
    (h : mapFind? idx k = some b) : (k, b) ∈ idx := by
  induction idx with
  | nil => simp [mapFind?] at h
  | cons kb rest ih =>
    obtain ⟨k2, b2⟩ := kb
    by_cases hk : k = k2
    · subst hk
      simp [mapFind?] at h
      simp [h]
    · simp [mapFind?, hk] at h
      exact List.mem_cons_of_mem _ (ih h)

theorem mapContains_iff_mem_keys {idx : List (K × List Nat)} {k : K} :
    mapContains idx k = true ↔ k ∈ idx.map Prod.fst := by
  rw [mapContains, Option.isSome_iff_ne_none, ne_eq, mapFind?_eq_none_iff, not_not]

theorem mapFind?_of_mem {idx : List (K × List Nat)} {k : K} {b : List Nat}
    (hnd : (idx.map Prod.fst).Nodup) (hmem : (k, b) ∈ idx) :
    mapFind? idx k = some b := by
  induction idx with
  | nil => simp at hmem
  | cons kb rest ih =>
    obtain ⟨k2, b2⟩ := kb
    simp only [List.map_cons, List.nodup_cons] at hnd
    rcases List.mem_cons.mp hmem with h | h
    · rw [Prod.mk.injEq] at h
      simp [mapFind?, h.1, h.2]
    · have hne : k ≠ k2 := by
        rintro rfl
        exact hnd.1 (List.mem_map.mpr ⟨(k, b), h, rfl⟩)
      simp [mapFind?, hne, ih hnd.2 h]

theorem mem_keys_mapInsertHandle {idx : List (K × List Nat)} {k j : K} {h : Nat} :
    j ∈ (mapInsertHandle idx k h).map Prod.fst ↔ j = k ∨ j ∈ idx.map Prod.fst := by
  induction idx with
  | nil => simp [mapInsertHandle]
  | cons kb rest ih =>
    obtain ⟨k2, b⟩ := kb
    by_cases h1 : k < k2
    · have hred : mapInsertHandle ((k2, b) :: rest) k h = (k, [h]) :: (k2, b) :: rest := by
        simp [mapInsertHandle, h1]
      rw [hred]
      simp only [List.map_cons, List.mem_cons]
    · by_cases h2 : k = k2
      · subst h2
        have hred : mapInsertHandle ((k, b) :: rest) k h = (k, b ++ [h]) :: rest := by
          simp [mapInsertHandle, h1]
        rw [hred]
        simp only [List.map_cons, List.mem_cons]
        tauto
      · have hred : mapInsertHandle ((k2, b) :: rest) k h = (k2, b) :: mapInsertHandle rest k h := by
          simp [mapInsertHandle, h1, h2]
        rw [hred]
        simp only [List.map_cons, List.mem_cons, ih]
        tauto

theorem pairwise_mapInsertHandle {idx : List (K × List Nat)} {k : K} {h : Nat}
    (hp : List.Pairwise (· < ·) (idx.map Prod.fst)) :
    List.Pairwise (· < ·) ((mapInsertHandle idx k h).map Prod.fst) := by
  induction idx with
  | nil => simp [mapInsertHandle]
  | cons kb rest ih =>
    obtain ⟨k2, b⟩ := kb
    simp only [List.map_cons, List.pairwise_cons] at hp
    by_cases h1 : k < k2
    · simp only [mapInsertHandle, if_pos h1, List.map_cons, List.pairwise_cons]
      refine ⟨?_, hp.1, hp.2⟩
      intro j hj
      rcases List.mem_cons.mp hj with rfl | hj2
      · exact h1
      · exact h1.trans (hp.1 j hj2)
    · by_cases h2 : k = k2
      · subst h2
        simpa [mapInsertHandle, h1] using hp
      · have hk2 : k2 < k := by
          rcases lt_trichotomy k k2 with h3 | h3 | h3
          · exact absurd h3 h1
          · exact absurd h3 h2
          · exact h3
        simp only [mapInsertHandle, if_neg h1, if_neg h2, List.map_cons, List.pairwise_cons]
        refine ⟨?_, ih hp.2⟩
        intro j hj
        rcases mem_keys_mapInsertHandle.mp hj with rfl | hj2
        · exact hk2
        · exact hp.1 j hj2

theorem mapFind?_insertHandle_ne {idx : List (K × List Nat)} {k j : K} {h : Nat}
    (hne : j ≠ k) : mapFind? (mapInsertHandle idx k h) j = mapFind? idx j := by
  induction idx with
  | nil => simp [mapInsertHandle, mapFind?, hne]
  | cons kb rest ih =>
    obtain ⟨k2, b⟩ := kb
    by_cases h1 : k < k2
    · simp [mapInsertHandle, h1, mapFind?, hne]
    · by_cases h2 : k = k2
      · subst h2
        simp [mapInsertHandle, h1, mapFind?, hne]
      · by_cases h3 : j = k2
        · simp [mapInsertHandle, h1, h2, mapFind?, h3]
        · simp [mapInsertHandle, h1, h2, mapFind?, h3, ih]

theorem mapFind?_insertHandle_self {idx : List (K × List Nat)} {k : K} {h : Nat}
    (hp : List.Pairwise (· < ·) (idx.map Prod.fst)) :
    mapFind? (mapInsertHandle idx k h) k = some ((mapFind? idx k).getD [] ++ [h]) := by
  induction idx with
  | nil => simp [mapInsertHandle, mapFind?]
  | cons kb rest ih =>
    obtain ⟨k2, b⟩ := kb
    simp only [List.map_cons, List.pairwise_cons] at hp
    by_cases h1 : k < k2
    · have hnm : mapFind? ((k2, b) :: rest) k = none := by
        rw [mapFind?_eq_none_iff]
        intro hmem
        rw [List.map_cons] at hmem
        rcases List.mem_cons.mp hmem with rfl | hmem2
        · exact absurd h1 (lt_irrefl _)
        · exact absurd (h1.trans (hp.1 _ hmem2)) (lt_irrefl _)
      simp only [mapInsertHandle, if_pos h1, hnm, Option.getD_none]
      simp [mapFind?]
    · by_cases h2 : k = k2
      · subst h2
        simp [mapInsertHandle, h1, mapFind?]
      · simp [mapInsertHandle, h1, h2, mapFind?, ih hp.2]

theorem keys_mapSet {idx : List (K × List Nat)} {k : K} {nb : List Nat} :
    (mapSet idx k nb).map Prod.fst = idx.map Prod.fst := by
  induction idx with
  | nil => simp [mapSet]
  | cons kb rest ih =>
    obtain ⟨k2, b⟩ := kb
    by_cases h : k = k2 <;> simp [mapSet, h, ih]

theorem mapFind?_mapSet {idx : List (K × List Nat)} {k j : K} {nb : List Nat} :
    mapFind? (mapSet idx k nb) j =
      if j = k then (mapFind? idx k).map (fun _ => nb) else mapFind? idx j := by
  induction idx with
  | nil => by_cases h : j = k <;> simp [mapSet, mapFind?, h]
  | cons kb rest ih =>
    obtain ⟨k2, b⟩ := kb
    by_cases h1 : k = k2
    · subst h1
      by_cases h2 : j = k <;> simp [mapSet, mapFind?, h2]
    · by_cases h2 : j = k2
      · have h5 : j ≠ k := fun hh => h1 (hh.symm.trans h2)
        have h6 : k2 ≠ k := fun hh => h1 hh.symm
        simp [mapSet, mapFind?, h1, h2, h5, h6]
      · by_cases h3 : j = k
        · subst h3
          simp [mapSet, mapFind?, h1, h2, ih]
        · simp [mapSet, mapFind?, h1, h2, h3, ih]

theorem keys_mapErase_sublist {idx : List (K × List Nat)} {k : K} :
    List.Sublist ((mapErase idx k).map Prod.fst) (idx.map Prod.fst) := by
  induction idx with
  | nil => simp [mapErase]
  | cons kb rest ih =>
    obtain ⟨k2, b⟩ := kb
    by_cases h : k = k2
    · simp [mapErase, h]
    · simpa [mapErase, h] using ih.cons₂ k2

theorem mapFind?_mapErase {idx : List (K × List Nat)} {k j : K}
    (hnd : (idx.map Prod.fst).Nodup) :
    mapFind? (mapErase idx k) j = if j = k then none else mapFind? idx j := by
  induction idx with
  | nil => by_cases h : j = k <;> simp [mapErase, mapFind?, h]
  | cons kb rest ih =>
    obtain ⟨k2, b⟩ := kb
    simp only [List.map_cons, List.nodup_cons] at hnd
    by_cases h1 : k = k2
    · subst h1
      by_cases h2 : j = k
      · subst h2
        simp only [mapErase, if_pos rfl, if_pos rfl]
        exact mapFind?_eq_none_iff.mpr hnd.1
      · simp [mapErase, mapFind?, h2]
    · by_cases h2 : j = k2
      · subst h2
        have : j ≠ k := fun hh => h1 (hh ▸ rfl)
        simp [mapErase, mapFind?, h1, this]
      · simp [mapErase, mapFind?, h1, h2, ih hnd.2]

/-! ### Bucket and well-formedness lemmas -/

theorem nodup_keys_of_pairwise {l : List K} (hp : List.Pairwise (· < ·) l) : l.Nodup :=
  hp.imp ne_of_lt

theorem bucketSpec_append {seq : List (Entry K V)} {e : Entry K V} {j : K} :
    bucketSpec (seq ++ [e]) j =
      bucketSpec seq j ++ (if e.key = j then [e.nid] else []) := by
  by_cases h : e.key = j <;> simp [bucketSpec, List.filter_append, h]

/-- When no entry of the sequence carries key `k` (in particular when
`k` is absent from a well-formed index), its specified bucket is empty. -/
theorem bucketSpec_eq_nil_of_not_mem {s : KVState K V} {k : K}
    (hm : ∀ e ∈ s.seq, mapContains s.idx e.key = true)
    (hk : mapContains s.idx k = false) : bucketSpec s.seq k = [] := by
  rw [bucketSpec, List.map_eq_nil_iff, List.filter_eq_nil_iff]
  intro e he
  simp only [decide_eq_true_eq]
  intro hkey
  have hc := hm e he
  rw [hkey] at hc
  rw [hc] at hk
  simp at hk

theorem bucketSpec_getD {s : KVState K V} (hw : WF s) (k : K) :
    (mapFind? s.idx k).getD [] = bucketSpec s.seq k := by
  obtain ⟨hp, hb, hm, _, _⟩ := hw
  cases hfind : mapFind? s.idx k with
  | none =>
    have : mapContains s.idx k = false := by
      simp [mapContains, hfind]
    rw [Option.getD_none, bucketSpec_eq_nil_of_not_mem hm this]
  | some b =>
    rw [Option.getD_some]
    exact hb (k, b) (mem_of_mapFind?_eq_some hfind)

/-- Under well-formedness, `mapFind?` agrees with `bucketSpec` whenever it returns. -/
theorem mapFind?_eq_bucketSpec {s : KVState K V} (hw : WF s) {k : K} {b : List Nat}
    (hfind : mapFind? s.idx k = some b) : b = bucketSpec s.seq k :=
  hw.2.1 (k, b) (mem_of_mapFind?_eq_some hfind)

/-- `push` preserves the representation invariant. -/
theorem WF_push {s : KVState K V} (hw : WF s) (k : K) (v : V) : WF (pushOp s k v) := by
  obtain ⟨hp, hb, hm, hid, hnd⟩ := hw
  have hwfull : WF s := ⟨hp, hb, hm, hid, hnd⟩
  have hp2 : List.Pairwise (· < ·) ((mapInsertHandle s.idx k s.nextId).map Prod.fst) :=
    pairwise_mapInsertHandle hp
  refine ⟨hp2, ?_, ?_, ?_, ?_⟩
  · rintro ⟨j, b2⟩ hkb
    have hfind : mapFind? (mapInsertHandle s.idx k s.nextId) j = some b2 :=
      mapFind?_of_mem (nodup_keys_of_pairwise hp2) hkb
    show b2 = bucketSpec (s.seq ++ [(⟨s.nextId, k, v⟩ : Entry K V)]) j
    by_cases hjk : j = k
    · rw [hjk] at hfind ⊢
      rw [mapFind?_insertHandle_self hp] at hfind
      have hb2 : b2 = (mapFind? s.idx k).getD [] ++ [s.nextId] :=
        (Option.some_inj.mp hfind).symm
      rw [hb2, bucketSpec_append, bucketSpec_getD hwfull]
      simp
    · rw [mapFind?_insertHandle_ne hjk] at hfind
      rw [bucketSpec_append]
      rw [if_neg (fun hh => hjk hh.symm), List.append_nil]
      exact mapFind?_eq_bucketSpec hwfull hfind
  · intro e he
    show mapContains (mapInsertHandle s.idx k s.nextId) e.key = true
    rw [mapContains_iff_mem_keys, mem_keys_mapInsertHandle]
    have he2 : e ∈ s.seq ++ [(⟨s.nextId, k, v⟩ : Entry K V)] := he
    rcases List.mem_append.mp he2 with h | h
    · exact Or.inr (mapContains_iff_mem_keys.mp (hm e h))
    · simp only [List.mem_singleton] at h
      subst h
      exact Or.inl rfl
  · intro e he
    have he2 : e ∈ s.seq ++ [(⟨s.nextId, k, v⟩ : Entry K V)] := he
    show e.nid < s.nextId + 1
    rcases List.mem_append.mp he2 with h | h
    · exact (hid e h).trans (Nat.lt_succ_self _)
    · simp only [List.mem_singleton] at h
      subst h
      exact Nat.lt_succ_self _
  · show ((s.seq ++ [(⟨s.nextId, k, v⟩ : Entry K V)]).map Entry.nid).Nodup
    rw [List.map_append, List.map_singleton]
    rw [List.nodup_append]
    refine ⟨hnd, List.nodup_singleton _, ?_⟩
    intro a ha
    have haval : a < s.nextId := by
      rcases List.mem_map.mp ha with ⟨e, he, rfl⟩
      exact hid e he
    simp only [List.mem_singleton]
    exact fun hh => absurd (hh ▸ haval) (lt_irrefl _)

theorem WF_emptyState : WF (KVState.emptyState K V) := by
  refine ⟨?_, ?_, ?_, ?_, ?_⟩ <;> simp [KVState.emptyState]

theorem WF_pushAll {s : KVState K V} (hw : WF s) (l : List (K × V)) : WF (pushAll s l) := by
  induction l generalizing s with
  | nil => exact hw
  | cons kv rest ih => exact ih (WF_push hw kv.1 kv.2)

theorem obsEntries_push {s : KVState K V} {k : K} {v : V} :
    obsEntries (pushOp s k v) = obsEntries s ++ [(k, v)] := by
  simp [obsEntries, pushOp]

theorem obsEntries_pushAll {s : KVState K V} {l : List (K × V)} :
    obsEntries (pushAll s l) = obsEntries s ++ l := by
  induction l generalizing s with
  | nil => simp [pushAll]
  | cons kv rest ih =>
    show obsEntries (pushAll (pushOp s kv.1 kv.2) rest) = obsEntries s ++ (kv :: rest)
    rw [ih, obsEntries_push]
    simp

theorem obsEntries_emptyState : obsEntries (KVState.emptyState K V) = [] := rfl

/-- The deep rebuild performed by `copy()` preserves the observable sequence. -/
theorem obsEntries_rebuild {s : KVState K V} : obsEntries (rebuild s) = obsEntries s := by
  rw [rebuild, obsEntries_pushAll, obsEntries_emptyState, List.nil_append]
  rfl

/-- The deep rebuild performed by `copy()` always yields a well-formed state. -/
theorem WF_rebuild {s : KVState K V} : WF (rebuild s) :=
  WF_pushAll WF_emptyState _

/-- States built purely from pushes have no empty buckets (the `pop(key)`
slip is the only source of empty buckets). -/
def noEmptyBuckets (s : KVState K V) : Prop := ∀ kb ∈ s.idx, kb.2 ≠ []

theorem noEmptyBuckets_push {s : KVState K V} (hp : List.Pairwise (· < ·) (s.idx.map Prod.fst))
    (hne : noEmptyBuckets s) (k : K) (v : V) : noEmptyBuckets (pushOp s k v) := by
  rintro ⟨j, b2⟩ hkb
  have hp2 : List.Pairwise (· < ·) ((mapInsertHandle s.idx k s.nextId).map Prod.fst) :=
    pairwise_mapInsertHandle hp
  have hfind : mapFind? (mapInsertHandle s.idx k s.nextId) j = some b2 :=
    mapFind?_of_mem (nodup_keys_of_pairwise hp2) hkb
  by_cases hjk : j = k
  · subst hjk
    rw [mapFind?_insertHandle_self hp] at hfind
    injection hfind with hh
    simp [← hh]
  · rw [mapFind?_insertHandle_ne hjk] at hfind
    exact hne (j, b2) (mem_of_mapFind?_eq_some hfind)

theorem noEmptyBuckets_pushAll {s : KVState K V} (hw : WF s) (hne : noEmptyBuckets s)
    (l : List (K × V)) : noEmptyBuckets (pushAll s l) := by
  induction l generalizing s with
  | nil => exact hne
  | cons kv rest ih =>
    exact ih (WF_push hw kv.1 kv.2) (noEmptyBuckets_push hw.1 hne kv.1 kv.2)

/-! ### Handle (list-iterator) lemmas -/

theorem mapContains_mapSet {idx : List (K × List Nat)} {k j : K} {nb : List Nat} :
    mapContains (mapSet idx k nb) j = mapContains idx j := by
  rw [Bool.eq_iff_iff, mapContains_iff_mem_keys, mapContains_iff_mem_keys, keys_mapSet]

theorem nid_ne_of_mem_pre {pre post : List (Entry K V)} {e : Entry K V}
    (hnd : ((pre ++ e :: post).map Entry.nid).Nodup) :
    ∀ x ∈ pre, x.nid ≠ e.nid := by
  intro x hx
  rw [List.map_append, List.nodup_append] at hnd
  intro heq
  exact hnd.2.2 (List.mem_map.mpr ⟨x, hx, rfl⟩)
    (by rw [heq] at *; exact List.mem_map.mpr ⟨e, List.mem_cons_self e post, rfl⟩)

theorem findNid?_append_of_not_mem {pre post : List (Entry K V)} {e : Entry K V}
    (hpre : ∀ x ∈ pre, x.nid ≠ e.nid) :
    findNid? (pre ++ e :: post) e.nid = some e := by
  induction pre with
  | nil => simp [findNid?]
  | cons x rest ih =>
    have hx : x.nid ≠ e.nid := hpre x (List.mem_cons_self x rest)
    simp only [List.cons_append, findNid?, if_neg hx]
    exact ih (fun y hy => hpre y (List.mem_cons_of_mem x hy))

theorem eraseNid_append_of_not_mem {pre post : List (Entry K V)} {e : Entry K V}
    (hpre : ∀ x ∈ pre, x.nid ≠ e.nid) :
    eraseNid (pre ++ e :: post) e.nid = pre ++ post := by
  induction pre with
  | nil => simp [eraseNid]
  | cons x rest ih =>
    have hx : x.nid ≠ e.nid := hpre x (List.mem_cons_self x rest)
    simp only [List.cons_append, eraseNid, if_neg hx]
    exact congrArg (List.cons x) (ih (fun y hy => hpre y (List.mem_cons_of_mem x hy)))

/-- Decomposition of a sequence at the first entry of key `k`, driven by the
head of the specified bucket. -/
theorem bucketSpec_cons_split {seq : List (Entry K V)} {k : K} {h : Nat} {bt : List Nat}
    (hbs : bucketSpec seq k = h :: bt) :
    ∃ pre e post, seq = pre ++ e :: post ∧ e.key = k ∧ e.nid = h ∧
      (∀ x ∈ pre, ¬ x.key = k) ∧ bucketSpec post k = bt := by
  rw [bucketSpec] at hbs
  rcases List.map_eq_cons_iff.mp hbs with ⟨e, l2, hfil, hnid, hmapbt⟩
  rcases List.filter_eq_cons_iff.mp hfil with ⟨pre, post, hseq, hpre, hek, hfil2⟩
  refine ⟨pre, e, post, hseq, ?_, hnid.symm ▸ rfl, ?_, ?_⟩
  · exact of_decide_eq_true hek
  · intro x hx
    exact of_decide_eq_false (Bool.eq_false_iff.mpr (hpre x hx))
  · rw [bucketSpec, hfil2, hmapbt]

/-- The specified bucket of the head entry starts with the head's handle. -/
theorem bucketSpec_head {e : Entry K V} {rest : List (Entry K V)} :
    bucketSpec (e :: rest) e.key = e.nid :: bucketSpec rest e.key := by
  simp [bucketSpec]

theorem bucketSpec_cons_ne {e : Entry K V} {rest : List (Entry K V)} {j : K}
    (hne : ¬ e.key = j) : bucketSpec (e :: rest) j = bucketSpec rest j := by
  simp [bucketSpec, hne]

/-- `pop()` on a well-formed non-empty container: succeeds, removes exactly the
front entry, and preserves well-formedness. -/
theorem popOp_ok {s : KVState K V} (hw : WF s) {e : Entry K V} {rest : List (Entry K V)}
    (hseq : s.seq = e :: rest) :
    ∃ idx2, popOp s = .ok ⟨rest, idx2, s.nextId⟩ ∧ WF ⟨rest, idx2, s.nextId⟩ := by
  obtain ⟨hp, hb, hm, hid, hnd⟩ := hw
  have hcont : mapContains s.idx e.key = true := hm e (hseq ▸ List.mem_cons_self e rest)
  rcases Option.isSome_iff_exists.mp (by rwa [mapContains] at hcont) with ⟨b, hfind⟩
  have hbval : b = bucketSpec s.seq e.key :=
    hb (e.key, b) (mem_of_mapFind?_eq_some hfind)
  rw [hseq, bucketSpec_head] at hbval
  subst hbval
  have hknodup : (s.idx.map Prod.fst).Nodup := nodup_keys_of_pairwise hp
  refine ⟨if bucketSpec rest e.key = [] then mapErase s.idx e.key
          else mapSet s.idx e.key (bucketSpec rest e.key), ?_, ?_⟩
  · rw [popOp]
    rw [hseq]
    simp only [hfind]
  · constructor
    · by_cases hbt : bucketSpec rest e.key = []
      · rw [if_pos hbt]
        exact hp.sublist keys_mapErase_sublist
      · rw [if_neg hbt, keys_mapSet]
        exact hp
    refine ⟨?_, ?_, ?_, ?_⟩
    · rintro ⟨j, b2⟩ hkb
      by_cases hbt : bucketSpec rest e.key = []
      · rw [if_pos hbt] at hkb
        have hfind2 : mapFind? (mapErase s.idx e.key) j = some b2 :=
          mapFind?_of_mem (hknodup.sublist keys_mapErase_sublist) hkb
        rw [mapFind?_mapErase hknodup] at hfind2
        by_cases hj : j = e.key
        · rw [if_pos hj] at hfind2
          exact absurd hfind2 (by simp)
        · rw [if_neg hj] at hfind2
          have hval2 : b2 = bucketSpec s.seq j := hb (j, b2) (mem_of_mapFind?_eq_some hfind2)
          show b2 = bucketSpec rest j
          rw [hval2, hseq]
          exact bucketSpec_cons_ne (fun hh => hj hh.symm)
      · rw [if_neg hbt] at hkb
        have hfind2 : mapFind? (mapSet s.idx e.key (bucketSpec rest e.key)) j = some b2 := by
          apply mapFind?_of_mem _ hkb
          rw [keys_mapSet]
          exact hknodup
        rw [mapFind?_mapSet] at hfind2
        by_cases hj : j = e.key
        · rw [if_pos hj, hfind] at hfind2
          have hb2 : bucketSpec rest e.key = b2 := Option.some_inj.mp hfind2
          show b2 = bucketSpec rest j
          rw [hj, ← hb2]
        · rw [if_neg hj] at hfind2
          have hval2 : b2 = bucketSpec s.seq j := hb (j, b2) (mem_of_mapFind?_eq_some hfind2)
          show b2 = bucketSpec rest j
          rw [hval2, hseq]
          exact bucketSpec_cons_ne (fun hh => hj hh.symm)
    · intro x hx
      show mapContains _ x.key = true
      have hxs : x ∈ s.seq := hseq ▸ List.mem_cons_of_mem e hx
      by_cases hbt : bucketSpec rest e.key = []
      · rw [if_pos hbt]
        by_cases hj : x.key = e.key
        · exfalso
          have hmapnil := hbt
          rw [bucketSpec, List.map_eq_nil_iff] at hmapnil
          have hxf : x ∈ rest.filter (fun y => decide (y.key = e.key)) :=
            List.mem_filter.mpr ⟨hx, decide_eq_true hj⟩
          rw [hmapnil] at hxf
          simp at hxf
        · rw [mapContains_iff_mem_keys]
          have hcx : mapContains s.idx x.key = true := hm x hxs
          rw [mapContains_iff_mem_keys] at hcx
          have : mapFind? (mapErase s.idx e.key) x.key = mapFind? s.idx x.key := by
            rw [mapFind?_mapErase hknodup, if_neg hj]
          rw [← mapContains_iff_mem_keys, mapContains, this, ← mapContains]
          rwa [mapContains_iff_mem_keys]
      · rw [if_neg hbt, mapContains_mapSet]
        exact hm x hxs
    · intro x hx
      exact hid x (hseq ▸ List.mem_cons_of_mem e hx)
    · have : (s.seq.map Entry.nid).Nodup := hnd
      rw [hseq, List.map_cons, List.nodup_cons] at this
      exact this.2

/-- `pop(key)` on a well-formed container whose bucket for `k` is non-empty:
succeeds, removes exactly the first entry of `k`, keeps the key in the index
(with the tail bucket — possibly empty), and preserves well-formedness. -/
theorem popKeyOp_ok {s : KVState K V} (hw : WF s) {k : K} {h : Nat} {bt : List Nat}
    (hfind : mapFind? s.idx k = some (h :: bt)) :
    ∃ pre e post, s.seq = pre ++ e :: post ∧ e.key = k ∧ (∀ x ∈ pre, ¬ x.key = k) ∧
      popKeyOp s k = .ok ⟨pre ++ post, mapSet s.idx k bt, s.nextId⟩ ∧
      WF ⟨pre ++ post, mapSet s.idx k bt, s.nextId⟩ := by
  obtain ⟨hp, hb, hm, hid, hnd⟩ := hw
  have hknodup : (s.idx.map Prod.fst).Nodup := nodup_keys_of_pairwise hp
  have hbs : bucketSpec s.seq k = h :: bt :=
    (hb (k, h :: bt) (mem_of_mapFind?_eq_some hfind)).symm ▸ rfl
  rcases bucketSpec_cons_split hbs with ⟨pre, e, post, hseq, hek, hnid, hpre, hbt⟩
  have hndseq : ((pre ++ e :: post).map Entry.nid).Nodup := hseq ▸ hnd
  have hprenid : ∀ x ∈ pre, x.nid ≠ e.nid := nid_ne_of_mem_pre hndseq
  refine ⟨pre, e, post, hseq, hek, hpre, ?_, ?_⟩
  · rw [popKeyOp]
    simp only [hfind]
    rw [hseq, ← hnid, findNid?_append_of_not_mem hprenid,
      eraseNid_append_of_not_mem hprenid]
  · refine ⟨?_, ?_, ?_, ?_, ?_⟩
    · rw [keys_mapSet]
      exact hp
    · rintro ⟨j, b2⟩ hkb
      have hfind2 : mapFind? (mapSet s.idx k bt) j = some b2 := by
        apply mapFind?_of_mem _ hkb
        rw [keys_mapSet]
        exact hknodup
      rw [mapFind?_mapSet] at hfind2
      show b2 = bucketSpec (pre ++ post) j
      have hbapp : ∀ (A B : List (Entry K V)) (j2 : K),
          bucketSpec (A ++ B) j2 = bucketSpec A j2 ++ bucketSpec B j2 := by
        intro A B j2
        simp [bucketSpec, List.filter_append]
      by_cases hj : j = k
      · rw [if_pos hj, hfind] at hfind2
        have hb2 : bt = b2 := Option.some_inj.mp hfind2
        have hprenil : bucketSpec pre k = [] := by
          rw [bucketSpec, List.map_eq_nil_iff, List.filter_eq_nil_iff]
          intro x hx
          simpa using hpre x hx
        rw [← hb2, hj, hbapp, hprenil, hbt, List.nil_append]
      · rw [if_neg hj] at hfind2
        have hval : b2 = bucketSpec s.seq j := hb (j, b2) (mem_of_mapFind?_eq_some hfind2)
        rw [hval, hseq, hbapp, hbapp]
        rw [bucketSpec_cons_ne (fun hh => hj (by rw [← hh, hek]))]
    · intro x hx
      show mapContains _ x.key = true
      rw [mapContains_mapSet]
      apply hm
      rw [hseq]
      rcases List.mem_append.mp hx with h2 | h2
      · exact List.mem_append.mpr (Or.inl h2)
      · exact List.mem_append.mpr (Or.inr (List.mem_cons_of_mem e h2))
    · intro x hx
      apply hid
      rw [hseq]
      rcases List.mem_append.mp hx with h2 | h2
      · exact List.mem_append.mpr (Or.inl h2)
      · exact List.mem_append.mpr (Or.inr (List.mem_cons_of_mem e h2))
    · have hsub : List.Sublist (pre ++ post) (pre ++ e :: post) :=
        List.Sublist.append_left (List.sublist_cons_self e post) pre
      exact (hndseq).sublist (hsub.map Entry.nid)

/-! ### Splice lemmas (`move_to_back`) -/

theorem findNid?_eq_some_of_mem {seq : List (Entry K V)} {e : Entry K V}
    (hnd : (seq.map Entry.nid).Nodup) (he : e ∈ seq) :
    findNid? seq e.nid = some e := by
  induction seq with
  | nil => simp at he
  | cons f rest ih =>
    rw [List.map_cons, List.nodup_cons] at hnd
    rcases List.mem_cons.mp he with rfl | hrest
    · simp [findNid?]
    · have hne : f.nid ≠ e.nid := by
        intro hh
        exact hnd.1 (by rw [hh]; exact List.mem_map.mpr ⟨e, hrest, rfl⟩)
      simp only [findNid?, if_neg hne]
      exact ih hnd.2 hrest

theorem eraseNid_eq_filter_of_nodup {seq : List (Entry K V)} {h : Nat}
    (hnd : (seq.map Entry.nid).Nodup) :
    eraseNid seq h = seq.filter (fun x => decide (¬ x.nid = h)) := by
  induction seq with
  | nil => simp [eraseNid]
  | cons f rest ih =>
    rw [List.map_cons, List.nodup_cons] at hnd
    by_cases hf : f.nid = h
    · have hrest : rest.filter (fun x => decide (¬ x.nid = h)) = rest := by
        rw [List.filter_eq_self]
        intro x hx
        simp only [decide_eq_true_eq]
        intro hxh
        exact hnd.1 (by rw [hf, ← hxh]; exact List.mem_map.mpr ⟨x, hx, rfl⟩)
      simp only [eraseNid, if_pos hf]
      rw [List.filter_cons_of_neg, hrest]
      simp [hf]
    · simp only [eraseNid, if_neg hf]
      rw [List.filter_cons_of_pos, ih hnd.2]
      simp [hf]

/-- Effect of the splice loop on the handles of a duplicate-free sub-collection
`l` of the sequence: the spliced entries end up at the back, in splice order,
everything else keeps its relative position. -/
theorem spliceAll?_of_sub {l : List (Entry K V)} : ∀ {seq : List (Entry K V)},
    (seq.map Entry.nid).Nodup → (∀ x ∈ l, x ∈ seq) → (l.map Entry.nid).Nodup →
    spliceAll? seq (l.map Entry.nid) =
      some (seq.filter (fun x => decide (x.nid ∉ l.map Entry.nid)) ++ l) := by
  induction l with
  | nil =>
    intro seq hnd hsub hlnd
    rw [List.map_nil]
    show some seq = _
    rw [List.append_nil]
    congr 1
    symm
    rw [List.filter_eq_self]
    intro a ha
    exact decide_eq_true (by simp)
  | cons e l2 ih =>
    intro seq hnd hsub hlnd
    rw [List.map_cons, List.nodup_cons] at hlnd
    have hein : e ∈ seq := hsub e (List.mem_cons_self e l2)
    have hfind : findNid? seq e.nid = some e := findNid?_eq_some_of_mem hnd hein
    have hstep : spliceAll? seq (e.nid :: l2.map Entry.nid) =
        spliceAll? (eraseNid seq e.nid ++ [e]) (l2.map Entry.nid) := by
      simp only [spliceAll?, spliceToEnd?, hfind]
    have herase : eraseNid seq e.nid = seq.filter (fun x => decide (¬ x.nid = e.nid)) :=
      eraseNid_eq_filter_of_nodup hnd
    have hnd1 : ((eraseNid seq e.nid ++ [e]).map Entry.nid).Nodup := by
      rw [herase, List.map_append, List.nodup_append]
      refine ⟨hnd.sublist ((List.filter_sublist seq).map Entry.nid), by simp, ?_⟩
      intro a ha
      rcases List.mem_map.mp ha with ⟨x, hx, rfl⟩
      rcases List.mem_filter.mp hx with ⟨hxseq, hxdec⟩
      intro hmem
      rw [List.map_singleton, List.mem_singleton] at hmem
      exact of_decide_eq_true hxdec hmem
    have hsub1 : ∀ x ∈ l2, x ∈ eraseNid seq e.nid ++ [e] := by
      intro x hx
      apply List.mem_append.mpr
      left
      rw [herase]
      apply List.mem_filter.mpr
      refine ⟨hsub x (List.mem_cons_of_mem e hx), ?_⟩
      simp only [decide_eq_true_eq]
      intro hh
      exact hlnd.1 (by rw [← hh]; exact List.mem_map.mpr ⟨x, hx, rfl⟩)
    rw [List.map_cons, hstep, ih hnd1 hsub1 hlnd.2]
    congr 1
    rw [herase, List.filter_append]
    have hfe : List.filter (fun x => decide (x.nid ∉ l2.map Entry.nid)) [e] = [e] := by
      rw [List.filter_cons_of_pos]
      · rfl
      · simp [hlnd.1]
    rw [hfe, List.filter_filter, List.append_assoc, List.singleton_append]
    congr 1
    apply List.filter_congr
    intro x hx
    by_cases h1 : x.nid = e.nid
    · simp [h1]
    · by_cases h2 : x.nid ∈ l2.map Entry.nid <;> simp [h1, h2]

/-- `move_to_back(k)` on a well-formed container with `k` in the index:
succeeds, and the resulting sequence is exactly the non-`k` entries in their
original order followed by the `k` entries in their original order; the index
is untouched, and well-formedness is preserved. -/
theorem moveToBackOp_ok {s : KVState K V} (hw : WF s) {k : K} {bucket : List Nat}
    (hfind : mapFind? s.idx k = some bucket) :
    moveToBackOp s k = .ok
      ⟨s.seq.filter (fun x => decide (¬ x.key = k)) ++
         s.seq.filter (fun x => decide (x.key = k)), s.idx, s.nextId⟩ ∧
    WF ⟨s.seq.filter (fun x => decide (¬ x.key = k)) ++
         s.seq.filter (fun x => decide (x.key = k)), s.idx, s.nextId⟩ := by
  obtain ⟨hp, hb, hm, hid, hnd⟩ := hw
  have hbucket : bucket = bucketSpec s.seq k :=
    hb (k, bucket) (mem_of_mapFind?_eq_some hfind)
  have hlnd : ((s.seq.filter (fun y => decide (y.key = k))).map Entry.nid).Nodup :=
    hnd.sublist ((List.filter_sublist s.seq).map Entry.nid)
  have hpred : ∀ x ∈ s.seq,
      (decide (x.nid ∉ (s.seq.filter (fun y => decide (y.key = k))).map Entry.nid))
        = decide (¬ x.key = k) := by
    intro x hx
    apply decide_eq_decide.mpr
    constructor
    · intro hnin hkey
      exact hnin (List.mem_map.mpr ⟨x, List.mem_filter.mpr ⟨hx, decide_eq_true hkey⟩, rfl⟩)
    · intro hkey hin
      rcases List.mem_map.mp hin with ⟨y, hy, hynid⟩
      have hyseq : y ∈ s.seq := (List.mem_filter.mp hy).1
      have hyx : y = x := List.inj_on_of_nodup_map hnd hyseq hx hynid
      exact hkey (by rw [← hyx]; exact of_decide_eq_true (List.mem_filter.mp hy).2)
  have hsplice : spliceAll? s.seq bucket =
      some (s.seq.filter (fun x => decide (¬ x.key = k)) ++
        s.seq.filter (fun x => decide (x.key = k))) := by
    rw [hbucket,
      show bucketSpec s.seq k = (s.seq.filter (fun y => decide (y.key = k))).map Entry.nid
        from rfl,
      spliceAll?_of_sub hnd (fun x hx => (List.mem_filter.mp hx).1) hlnd,
      List.filter_congr hpred]
  have hbapp : ∀ (A B : List (Entry K V)) (j2 : K),
      bucketSpec (A ++ B) j2 = bucketSpec A j2 ++ bucketSpec B j2 := by
    intro A B j2
    simp [bucketSpec, List.filter_append]
  have hperm : List.Perm
      (s.seq.filter (fun x => decide (¬ x.key = k)) ++
        s.seq.filter (fun x => decide (x.key = k))) s.seq := by
    have hcg : s.seq.filter (fun x => decide (x.key = k)) =
        s.seq.filter (fun x => !(decide (¬ x.key = k))) := by
      apply List.filter_congr
      intro x hx
      by_cases hxx : x.key = k <;> simp [hxx]
    rw [hcg]
    exact List.filter_append_perm _ s.seq
  refine ⟨?_, ?_, ?_, ?_, ?_, ?_⟩
  · simp only [moveToBackOp, hfind, hsplice]
  · exact hp
  · rintro ⟨j, b2⟩ hkb
    have hval : b2 = bucketSpec s.seq j := hb (j, b2) hkb
    show b2 = bucketSpec _ j
    rw [hval, hbapp]
    by_cases hj : j = k
    · subst hj
      have h1 : bucketSpec (s.seq.filter (fun x => decide (¬ x.key = j))) j = [] := by
        rw [bucketSpec, List.map_eq_nil_iff, List.filter_eq_nil_iff]
        intro x hx
        simp only [decide_eq_true_eq]
        exact of_decide_eq_true ((List.mem_filter.mp hx).2)
      have h2 : bucketSpec (s.seq.filter (fun x => decide (x.key = j))) j =
          bucketSpec s.seq j := by
        rw [bucketSpec, bucketSpec, List.filter_filter]
        congr 1
        apply List.filter_congr
        intro x hx
        by_cases hxx : x.key = j <;> simp [hxx]
      rw [h1, h2, List.nil_append]
    · have h1 : bucketSpec (s.seq.filter (fun x => decide (¬ x.key = k))) j =
          bucketSpec s.seq j := by
        rw [bucketSpec, bucketSpec, List.filter_filter]
        congr 1
        apply List.filter_congr
        intro x hx
        by_cases hxx : x.key = j
        · simp only [hxx, decide_eq_true_eq]
          simp [hj]
        · simp [hxx]
      have h2 : bucketSpec (s.seq.filter (fun x => decide (x.key = k))) j = [] := by
        rw [bucketSpec, List.map_eq_nil_iff, List.filter_eq_nil_iff]
        intro x hx
        simp only [decide_eq_true_eq]
        intro hxj
        exact hj (by rw [← hxj]; exact (of_decide_eq_true (List.mem_filter.mp hx).2).symm ▸ rfl)
      rw [h1, h2, List.append_nil]
  · intro x hx
    apply hm
    rcases List.mem_append.mp hx with h2 | h2
    · exact (List.mem_filter.mp h2).1
    · exact (List.mem_filter.mp h2).1
  · intro x hx
    apply hid
    rcases List.mem_append.mp hx with h2 | h2
    · exact (List.mem_filter.mp h2).1
    · exact (List.mem_filter.mp h2).1
  · exact ((hperm.map Entry.nid).nodup_iff).mpr hnd

/-! ### The count/size invariant -/

theorem sum_map_add {l : List K} {f g : K → Nat} :
    (l.map (fun k => f k + g k)).sum = (l.map f).sum + (l.map g).sum := by
  induction l with
  | nil => simp
  | cons a rest ih =>
    simp only [List.map_cons, List.sum_cons, ih]
    omega

theorem sum_map_indicator {ks : List K} {a : K} (hnd : ks.Nodup) (ha : a ∈ ks) :
    (ks.map (fun k => if a = k then (1 : Nat) else 0)).sum = 1 := by
  induction ks with
  | nil => simp at ha
  | cons b rest ih =>
    rw [List.nodup_cons] at hnd
    by_cases hab : a = b
    · subst hab
      simp only [List.map_cons, List.sum_cons, if_pos rfl]
      have hz : (rest.map (fun k => if a = k then (1 : Nat) else 0)).sum = 0 := by
        apply List.sum_eq_zero
        intro x hx
        rcases List.mem_map.mp hx with ⟨c, hc, rfl⟩
        rw [if_neg (fun hh => hnd.1 (by rw [hh]; exact hc))]
      rw [hz]
      simp
    · have ha2 : a ∈ rest := by
        rcases List.mem_cons.mp ha with hh | hh
        · exact absurd hh hab
        · exact hh
      simp only [List.map_cons, List.sum_cons, if_neg hab, ih hnd.2 ha2]

/-- Summing the per-key occurrence counts over a duplicate-free key list
covering every entry's key gives the total entry count. -/
theorem sum_filter_lengths {ks : List K} {seq : List (Entry K V)}
    (hnd : ks.Nodup) (hcov : ∀ e ∈ seq, e.key ∈ ks) :
    (ks.map (fun k => (seq.filter (fun e => decide (e.key = k))).length)).sum
      = seq.length := by
  induction seq with
  | nil =>
    rw [show (ks.map (fun k => (List.filter (fun e => decide (e.key = k))
        ([] : List (Entry K V))).length)) = ks.map (fun _ => 0) from ?_]
    · exact List.sum_eq_zero (by intro x hx; rcases List.mem_map.mp hx with ⟨c, hc, rfl⟩; rfl)
    · rfl
  | cons e rest ih =>
    have hcov2 : ∀ x ∈ rest, x.key ∈ ks := fun x hx => hcov x (List.mem_cons_of_mem e hx)
    have hstep : ∀ k ∈ ks, (List.filter (fun x => decide (x.key = k)) (e :: rest)).length
        = (if e.key = k then (1 : Nat) else 0)
          + (List.filter (fun x => decide (x.key = k)) rest).length := by
      intro k _
      by_cases hk : e.key = k
      · rw [List.filter_cons_of_pos (by exact decide_eq_true hk), if_pos hk, List.length_cons]
        omega
      · rw [List.filter_cons_of_neg (by simp [hk]), if_neg hk]
        omega
    rw [List.map_congr_left hstep, sum_map_add, sum_map_indicator hnd (hcov e (List.mem_cons_self e rest)), ih hcov2]
    simp [Nat.add_comm]

/-- Under well-formedness the spec invariant `sum(count) = size` holds. -/
theorem sumCounts_eq_size_of_WF {s : KVState K V} (hw : WF s) : sumCounts s = sizeOp s := by
  obtain ⟨hp, hb, hm, _, _⟩ := hw
  have hknodup : (s.idx.map Prod.fst).Nodup := nodup_keys_of_pairwise hp
  have hpt : ∀ k ∈ s.idx.map Prod.fst,
      countOp s k = (s.seq.filter (fun e => decide (e.key = k))).length := by
    intro k hk
    have hcont : mapContains s.idx k = true := mapContains_iff_mem_keys.mpr hk
    rcases Option.isSome_iff_exists.mp (by rwa [mapContains] at hcont) with ⟨b, hfind⟩
    have hval : b = bucketSpec s.seq k := hb (k, b) (mem_of_mapFind?_eq_some hfind)
    simp only [countOp, hfind]
    rw [hval, bucketSpec, List.length_map]
  rw [sumCounts, kIterKeys, List.map_congr_left hpt]
  apply sum_filter_lengths hknodup
  intro e he
  rw [← mapContains_iff_mem_keys]
  exact hm e he

/-! ### The public-operation language and reachable states -/

/-- One public mutating call of the container interface: `push`, `pop()`,
`pop(key)`, `move_to_back(key)`, `clear()`, plus the deep rebuild `copy()`
performs when the state is shared or flagged. -/
inductive KOp (K V : Type) where
  | pushK : K → V → KOp K V
  | popK : KOp K V
  | popKeyK : K → KOp K V
  | mtbK : K → KOp K V
  | clearK : KOp K V
  | copyK : KOp K V
deriving DecidableEq, Repr

/-- One step of the interface: `some` is the state after the call returns or
throws one of the two documented exceptions (which leave the state unchanged);
`none` marks a run that hit undefined behaviour. -/
def stepOp (s : KVState K V) : KOp K V → Option (KVState K V)
  | .pushK k v => some (pushOp s k v)
  | .popK =>
    match popOp s with
    | .ok s2 => some s2
    | .error .emptyErr => some s
    | .error _ => none
  | .popKeyK k =>
    match popKeyOp s k with
    | .ok s2 => some s2
    | .error .keyNotFound => some s
    | .error _ => none
  | .mtbK k =>
    match moveToBackOp s k with
    | .ok s2 => some s2
    | .error .keyNotFound => some s
    | .error _ => none
  | .clearK => some (clearOp s)
  | .copyK => some (rebuild s)

/-- Running a list of interface calls from a given state. -/
def runFrom (s : KVState K V) : List (KOp K V) → Option (KVState K V)
  | [] => some s
  | op :: rest =>
    match stepOp s op with
    | none => none
    | some s2 => runFrom s2 rest

theorem WF_clear {s : KVState K V} : WF (clearOp s) := by
  refine ⟨?_, ?_, ?_, ?_, ?_⟩ <;> simp [clearOp]

/-- Every interface step preserves the representation invariant. -/
theorem WF_stepOp {s s2 : KVState K V} (hw : WF s) {op : KOp K V}
    (hstep : stepOp s op = some s2) : WF s2 := by
  cases op with
  | pushK k v =>
    rw [stepOp] at hstep
    cases hstep
    exact WF_push hw k v
  | popK =>
    cases hseq : s.seq with
    | nil =>
      have hpop : popOp s = .error .emptyErr := by rw [popOp, hseq]
      rw [stepOp] at hstep
      rw [hpop] at hstep
      cases hstep
      exact hw
    | cons e rest =>
      rcases popOp_ok hw hseq with ⟨idx2, hok, hwf⟩
      rw [stepOp] at hstep
      rw [hok] at hstep
      cases hstep
      exact hwf
  | popKeyK k =>
    cases hfind : mapFind? s.idx k with
    | none =>
      have hpop : popKeyOp s k = .error .keyNotFound := by rw [popKeyOp, hfind]
      rw [stepOp] at hstep
      rw [hpop] at hstep
      cases hstep
      exact hw
    | some b =>
      cases hb2 : b with
      | nil =>
        have hpop : popKeyOp s k = .error .undef := by
          rw [popKeyOp, hfind, hb2]
        rw [stepOp] at hstep
        rw [hpop] at hstep
        cases hstep
      | cons h bt =>
        rw [hb2] at hfind
        rcases popKeyOp_ok hw hfind with ⟨pre, e, post, _, _, _, hok, hwf⟩
        rw [stepOp] at hstep
        rw [hok] at hstep
        cases hstep
        exact hwf
  | mtbK k =>
    cases hfind : mapFind? s.idx k with
    | none =>
      have hmtb : moveToBackOp s k = .error .keyNotFound := by rw [moveToBackOp, hfind]
      rw [stepOp] at hstep
      rw [hmtb] at hstep
      cases hstep
      exact hw
    | some bucket =>
      rcases moveToBackOp_ok hw hfind with ⟨hok, hwf⟩
      rw [stepOp] at hstep
      rw [hok] at hstep
      cases hstep
      exact hwf
  | clearK =>
    rw [stepOp] at hstep
    cases hstep
    exact WF_clear
  | copyK =>
    rw [stepOp] at hstep
    cases hstep
    exact WF_rebuild

/-- Well-formedness holds along every run that avoids undefined behaviour. -/
theorem WF_runFrom {ops : List (KOp K V)} : ∀ {s s2 : KVState K V}, WF s →
    runFrom s ops = some s2 → WF s2 := by
  induction ops with
  | nil =>
    intro s s2 hw hrun
    rw [runFrom] at hrun
    cases hrun
    exact hw
  | cons op rest ih =>
    intro s s2 hw hrun
    rw [runFrom] at hrun
    cases hstep : stepOp s op with
    | none => rw [hstep] at hrun; cases hrun
    | some s3 =>
      rw [hstep] at hrun
      exact ih (WF_stepOp hw hstep) hrun

/-! ### FIFO pop traces -/

/-- Observe `front()` then `pop()`, `n` times, collecting the observed keys;
`none` if a call throws or hits undefined behaviour. -/
def popKeys : KVState K V → Nat → Option (List K)
  | _, 0 => some []
  | s, n + 1 =>
    match frontOp s with
    | none => none
    | some (k, _) =>
      match popOp s with
      | .ok s2 => (popKeys s2 n).map (fun ks => k :: ks)
      | .error _ => none

/-- Draining a well-formed container yields exactly its sequence keys in order. -/
theorem popKeys_drain {n : Nat} : ∀ {s : KVState K V}, WF s → s.seq.length = n →
    popKeys s n = some (s.seq.map Entry.key) := by
  induction n with
  | zero =>
    intro s _ hlen
    rw [List.length_eq_zero] at hlen
    rw [popKeys, hlen]
    rfl
  | succ n ih =>
    intro s hw hlen
    cases hseq : s.seq with
    | nil => rw [hseq] at hlen; simp at hlen
    | cons e rest =>
      have hfront : frontOp s = some (e.key, e.val) := by
        rw [frontOp, obsEntries, hseq]
        rfl
      rcases popOp_ok hw hseq with ⟨idx2, hok, hwf⟩
      have hlen2 : rest.length = n := by
        rw [hseq] at hlen
        simpa using hlen
      have hres := ih hwf hlen2
      simp only [popKeys, hfront, hok, hres]
      rfl

/-- The sequence keys of a container built by pushes are the pushed keys. -/
theorem seq_keys_pushAll {l : List (K × V)} :
    (pushAll (KVState.emptyState K V) l).seq.map Entry.key = l.map Prod.fst := by
  have h : obsEntries (pushAll (KVState.emptyState K V) l) = l := by
    rw [obsEntries_pushAll, obsEntries_emptyState, List.nil_append]
  calc (pushAll (KVState.emptyState K V) l).seq.map Entry.key
      = (obsEntries (pushAll (KVState.emptyState K V) l)).map Prod.fst := by
        rw [obsEntries, List.map_map]
        rfl
    _ = l.map Prod.fst := by rw [h]

/-! ### Key-iterator membership -/

/-- For a container built by pushes, the key iterator's range is exactly the
set of pushed keys. -/
theorem mem_kIterKeys_pushAll {l : List (K × V)} {k : K} :
    k ∈ kIterKeys (pushAll (KVState.emptyState K V) l) ↔
      k ∈ l.map Prod.fst := by
  have hw : WF (pushAll (KVState.emptyState K V) l) :=
    WF_pushAll WF_emptyState l
  have hne : noEmptyBuckets (pushAll (KVState.emptyState K V) l) :=
    noEmptyBuckets_pushAll WF_emptyState (by intro kb hkb; simp [KVState.emptyState] at hkb) l
  obtain ⟨hp, hb, hm, _, _⟩ := hw
  constructor
  · intro hk
    have hcont : mapContains (pushAll (KVState.emptyState K V) l).idx k = true :=
      mapContains_iff_mem_keys.mpr hk
    rcases Option.isSome_iff_exists.mp (by rwa [mapContains] at hcont) with ⟨b, hfind⟩
    have hmem := mem_of_mapFind?_eq_some hfind
    have hval : b = bucketSpec (pushAll (KVState.emptyState K V) l).seq k :=
      hb (k, b) hmem
    have hbne : b ≠ [] := hne (k, b) hmem
    rw [hval] at hbne
    rw [bucketSpec] at hbne
    have hfne : (pushAll (KVState.emptyState K V) l).seq.filter
        (fun e => decide (e.key = k)) ≠ [] := by
      intro hh
      exact hbne (by rw [hh]; rfl)
    rcases List.exists_mem_of_ne_nil _ hfne with ⟨x, hx⟩
    rcases List.mem_filter.mp hx with ⟨hxs, hxk⟩
    have hkey : x.key = k := of_decide_eq_true hxk
    rw [← hkey, ← seq_keys_pushAll]
    exact List.mem_map.mpr ⟨x, hxs, rfl⟩
  · intro hk
    rw [← seq_keys_pushAll] at hk
    rcases List.mem_map.mp hk with ⟨x, hxs, rfl⟩
    exact mapContains_iff_mem_keys.mp (hm x hxs)

/-! ### Exception injection (strong exception safety of `push` / `move_to_back`) -/

/-- The points inside `push` where a throw (value/key copy, allocation) can
occur after the precondition-free entry:
  * `fpCopy`   — inside `copy()`'s rebuild (value copies of every entry);
  * `fpSeq`    — inside `B->emplace_back(key, val)` (key/value copy or node
                 allocation; `std::list` gives the strong guarantee, so `B` is
                 unchanged and `do_pop_back` stays `false`);
  * `fpMap`    — inside `(*A)[key]` (map-node allocation or key copy; the map
                 insert gives the strong guarantee, so `A` is unchanged);
  * `fpBucket` — inside `bucket.emplace_back(...)` after `operator[]` returned
                 (list-node allocation; the bucket is unchanged, but a fresh
                 empty bucket inserted by `operator[]` may remain). -/
inductive PushFail where
  | fpCopy : PushFail
  | fpSeq : PushFail
  | fpMap : PushFail
  | fpBucket : PushFail
deriving DecidableEq, Repr

/-- `std::map::operator[]` alone: looks `k` up and inserts an empty bucket at
the sorted position when absent. -/
def mapInsertEmpty : List (K × List Nat) → K → List (K × List Nat)
  | [], k => [(k, [])]
  | (k2, b) :: rest, k =>
    if k < k2 then (k, []) :: (k2, b) :: rest
    else if k = k2 then (k2, b) :: rest
    else (k2, b) :: mapInsertEmpty rest k

/-- The `catch` block of `push`: `B->pop_back()`, then
`if (A->contains(key) && (*A)[key].empty()) A->erase(key)`. -/
def pushRollback (s : KVState K V) (k : K) : KVState K V :=
  { seq := s.seq.dropLast
    idx :=
      match mapFind? s.idx k with
      | some [] => mapErase s.idx k
      | _ => s.idx
    nextId := s.nextId }

/-- `push(key, val)` with an injected failure point (`none` = no failure).
Returns the container state after the call and whether it threw.  `needCopy`
says whether the `copy()` guard fired (state shared or flagged). -/
def pushFallible (s : KVState K V) (k : K) (v : V) (needCopy : Bool)
    (fp : Option PushFail) : KVState K V × Bool :=
  match fp with
  | some .fpCopy => (s, true)
  | _ =>
    let s0 := if needCopy then rebuild s else s
    match fp with
    | none => (pushOp s0 k v, false)
    | some .fpSeq => (s0, true)
    | some .fpMap =>
      (pushRollback ⟨s0.seq ++ [⟨s0.nextId, k, v⟩], s0.idx, s0.nextId⟩ k, true)
    | some .fpBucket =>
      (pushRollback ⟨s0.seq ++ [⟨s0.nextId, k, v⟩], mapInsertEmpty s0.idx k, s0.nextId⟩ k,
        true)
    | some .fpCopy => (s, true)

/-- `move_to_back(key)` with an injected value-copy failure.  After the
precondition check, the only code that copies values is `copy()`'s rebuild
(`copyThrows` injects a failure there); the relocation itself is
`std::list::splice`, which re-links nodes without constructing or assigning
any value and cannot throw. -/
def mtbFallible (s : KVState K V) (k : K) (copyThrows : Bool) : KVState K V × Bool :=
  if mapContains s.idx k = false then (s, true)
  else if copyThrows then (s, true)
  else
    match moveToBackOp s k with
    | .ok s2 => (s2, false)
    | .error _ => (s, true)

theorem obsEntries_pushRollback_append {s : KVState K V} {e : Entry K V}
    {idx2 : List (K × List Nat)} {k : K} :
    obsEntries (pushRollback ⟨s.seq ++ [e], idx2, s.nextId⟩ k) = obsEntries s := by
  rw [obsEntries, pushRollback]
  show ((s.seq ++ [e]).dropLast).map _ = _
  rw [List.dropLast_concat]
  rfl

/-- Strong exception safety of `push`: whatever the failure point, the call
reports a throw and every sequence observable (`size`, `front`, `back`, full
entry order) is as before the call. -/
theorem pushFallible_strong {s : KVState K V} {k : K} {v : V} {needCopy : Bool}
    {fp : PushFail} :
    (pushFallible s k v needCopy (some fp)).2 = true ∧
    obsEntries (pushFallible s k v needCopy (some fp)).1 = obsEntries s := by
  have hobs0 : obsEntries (if needCopy then rebuild s else s) = obsEntries s := by
    cases needCopy with
    | true => exact obsEntries_rebuild
    | false => rfl
  cases fp with
  | fpCopy => exact ⟨rfl, rfl⟩
  | fpSeq => exact ⟨rfl, hobs0⟩
  | fpMap =>
    refine ⟨rfl, ?_⟩
    show obsEntries (pushRollback ⟨_ ++ [_], _, _⟩ k) = _
    rw [obsEntries_pushRollback_append]
    exact hobs0
  | fpBucket =>
    refine ⟨rfl, ?_⟩
    show obsEntries (pushRollback ⟨_ ++ [_], _, _⟩ k) = _
    rw [obsEntries_pushRollback_append]
    exact hobs0

/-- Strong exception safety of `move_to_back`: if the call throws, the state
is exactly the pre-call state. -/
theorem mtbFallible_strong {s : KVState K V} {k : K} {copyThrows : Bool}
    (hthrew : (mtbFallible s k copyThrows).2 = true) :
    (mtbFallible s k copyThrows).1 = s := by
  rw [mtbFallible] at hthrew ⊢
  by_cases h1 : mapContains s.idx k = false
  · rw [if_pos h1]
  · rw [if_neg h1] at hthrew ⊢
    by_cases h2 : copyThrows = true
    · rw [if_pos (by rw [h2])]
    · have h2f : copyThrows = false := Bool.eq_false_iff.mpr h2
      rw [h2f] at hthrew ⊢
      rw [if_neg (by simp)] at hthrew ⊢
      cases hmtb : moveToBackOp s k with
      | ok s2 => rw [hmtb] at hthrew; simp at hthrew
      | error err => rfl

/-! ### The sharing world: `shared_ptr` state, `must_copy`, copy-on-write -/

/-- One `kvfifo` instance: the address of its shared `(A, B)` state and its
`must_copy` flag. -/
structure Inst where
  ptr : Nat
  mustCopy : Bool
deriving DecidableEq, Repr

/-- A heap of logical states plus the set of live instances. -/
structure World (K V : Type) where
  heap : List (KVState K V)
  insts : List Inst
deriving DecidableEq, Repr

/-- `shared_ptr::use_count` of heap cell `p`. -/
def useCount (w : World K V) (p : Nat) : Nat :=
  (w.insts.filter (fun i => decide (i.ptr = p))).length

/-- The state instance `i` observes. -/
def readState (w : World K V) (i : Nat) : Option (KVState K V) :=
  match w.insts[i]? with
  | none => none
  | some inst => w.heap[inst.ptr]?

/-- `copy()`'s guard: `must_copy || !A.unique() || !B.unique()`
(`A` and `B` are always held together, so one use count suffices). -/
def needFork (w : World K V) (i : Nat) : Bool :=
  match w.insts[i]? with
  | none => false
  | some inst => inst.mustCopy || decide (1 < useCount w inst.ptr)

/-- The fork: rebuild a private deep copy at a fresh address, repoint the
instance at it and clear its flag (`*this = new_this`). -/
def doCopyAt (w : World K V) (i : Nat) : World K V :=
  match w.insts[i]? with
  | none => w
  | some inst =>
    match w.heap[inst.ptr]? with
    | none => w
    | some st => ⟨w.heap ++ [rebuild st], w.insts.set i ⟨w.heap.length, false⟩⟩

/-- `copy()`. -/
def copyGuard (w : World K V) (i : Nat) : World K V :=
  if needFork w i then doCopyAt w i else w

/-- The copy constructor: the new instance (appended at the end) shares the
source's state and inherits its flag; if the flag was set, it forks at once. -/
def copyCtorW (w : World K V) (i : Nat) : World K V :=
  match w.insts[i]? with
  | none => w
  | some inst =>
    if inst.mustCopy then doCopyAt ⟨w.heap, w.insts ++ [inst]⟩ w.insts.length
    else ⟨w.heap, w.insts ++ [inst]⟩

/-- The four mutating interface calls used by the COW-independence property. -/
inductive MutOp (K V : Type) where
  | pushM : K → V → MutOp K V
  | popM : MutOp K V
  | popKeyM : K → MutOp K V
  | mtbM : K → MutOp K V
deriving DecidableEq, Repr

/-- The precondition each call checks before `copy()` (a failed check throws
and mutates nothing). -/
def precondOk (st : KVState K V) : MutOp K V → Bool
  | .pushM _ _ => true
  | .popM => decide (st.seq ≠ [])
  | .popKeyM k => mapContains st.idx k
  | .mtbM k => mapContains st.idx k

/-- The state mutation each call performs after `copy()`. -/
def applyMutOp (st : KVState K V) : MutOp K V → Option (KVState K V)
  | .pushM k v => some (pushOp st k v)
  | .popM => (popOp st).toOption
  | .popKeyM k => (popKeyOp st k).toOption
  | .mtbM k => (moveToBackOp st k).toOption

/-- The in-place mutation of instance `i`'s heap cell (after `copy()` ran). -/
def mutCore (w1 : World K V) (i : Nat) (op : MutOp K V) : World K V :=
  match w1.insts[i]? with
  | none => w1
  | some inst =>
    match w1.heap[inst.ptr]? with
    | none => w1
    | some st1 =>
      match applyMutOp st1 op with
      | some st2 => ⟨w1.heap.set inst.ptr st2, w1.insts⟩
      | none => w1

/-- A mutating call on instance `i`: check the precondition on the observed
state, run `copy()`, mutate the (now private when shared) heap cell in place. -/
def mutW (w : World K V) (i : Nat) (op : MutOp K V) : World K V :=
  match readState w i with
  | none => w
  | some st =>
    if precondOk st op then mutCore (copyGuard w i) i op
    else w

/-- The non-const `front()`: checks emptiness, runs `copy()`, sets
`must_copy`, and hands out a reference aliasing the instance's current heap
cell (returned as the cell address). -/
def frontW (w : World K V) (i : Nat) : World K V × Option (Nat × K) :=
  match readState w i with
  | none => (w, none)
  | some st =>
    match st.seq with
    | [] => (w, none)
    | e :: _ =>
      let w1 := copyGuard w i
      match w1.insts[i]? with
      | none => (w1, none)
      | some inst =>
        (⟨w1.heap, w1.insts.set i ⟨inst.ptr, true⟩⟩, some (inst.ptr, e.key))

/-- Overwriting the front entry's value of heap cell `p` — what a caller can
do through the mutable reference returned by `front()`. -/
def setFrontVal (st : KVState K V) (v2 : V) : KVState K V :=
  match st.seq with
  | [] => st
  | e :: rest => ⟨⟨e.nid, e.key, v2⟩ :: rest, st.idx, st.nextId⟩

/-- Mutation through the alias returned by `front()`. -/
def writeFrontAlias (w : World K V) (p : Nat) (v2 : V) : World K V :=
  match w.heap[p]? with
  | none => w
  | some st => ⟨w.heap.set p (setFrontVal st v2), w.insts⟩

/-- A world holding one freshly built container `a` (flag clear, sole owner). -/
def mkWorldA (s : KVState K V) : World K V := ⟨[s], [⟨0, false⟩]⟩

/-! ### The moved-from instance (raw pointer view) -/

/-- A `kvfifo` instance at the `shared_ptr` level: `A`/`B` hold heap
addresses, `none` is the null pointer of a default-constructed `shared_ptr`. -/
structure RawInst where
  A : Option Nat
  B : Option Nat
  mustCopy : Bool
deriving DecidableEq, Repr

/-- The move constructor `kvfifo(kvfifo&& other)`.  In order: `must_copy` is
copied; the members `A`, `B` are default-constructed (null) and swapped with
`other`'s, which leaves `other` with nulls; then `if (must_copy)` the new
object runs `copy()` — its guard fires (the flag is set), so it iterates
`*B` (the source's former sequence) into a deep rebuild at a fresh address
and reassigns itself to it (`*this = new_this`), clearing the flag.
Returns `(moved-from residue, new instance with the updated heap)`; the
second component is `none` when that `copy()` dereferences a null or dangling
`B` — undefined behaviour. -/
def moveCtorRaw (heap : List (KVState K V)) (other : RawInst) :
    RawInst × Option (RawInst × List (KVState K V)) :=
  (⟨none, none, other.mustCopy⟩,
   if other.mustCopy then
     match other.B with
     | none => none
     | some p =>
       match heap[p]? with
       | none => none
       | some st => some (⟨some heap.length, some heap.length, false⟩, heap ++ [rebuild st])
   else some (⟨other.A, other.B, other.mustCopy⟩, heap))

/-- `size()` observed through the raw pointers: `B->size()` dereferences `B`
(`none` when that dereference is of a null pointer, despite `noexcept`). -/
def sizeRaw (heap : List (KVState K V)) (i : RawInst) : Option Nat :=
  match i.B with
  | none => none
  | some p =>
    match heap[p]? with
    | none => none
    | some st => some (sizeOp st)

/-- `empty()` via `B->empty()`. -/
def emptyRaw (heap : List (KVState K V)) (i : RawInst) : Option Bool :=
  match i.B with
  | none => none
  | some p =>
    match heap[p]? with
    | none => none
    | some st => some (decide (st.seq = []))

/-- `count(k)` via `A->contains` / `A->find`. -/
def countRaw (heap : List (KVState K V)) (i : RawInst) (k : K) : Option Nat :=
  match i.A with
  | none => none
  | some p =>
    match heap[p]? with
    | none => none
    | some st => some (countOp st k)

/-! ### Observable-equality helper -/

theorem obs_eq_imp {a b : KVState K V} (h : obsEntries a = obsEntries b) :
    sizeOp a = sizeOp b ∧ frontOp a = frontOp b ∧ backOp a = backOp b := by
  refine ⟨?_, ?_, ?_⟩
  · have h2 : (obsEntries a).length = (obsEntries b).length := by rw [h]
    simpa [sizeOp, obsEntries, List.length_map] using h2
  · rw [frontOp, frontOp, h]
  · rw [backOp, backOp, h]

/-! ## Claims -/

/-- C1: the spec claims a key is in the index iff its bucket is non-empty (no
empty bucket persists), in particular after `pop(key)` removes the key's last
entry.  The code violates this: after `push(1, "a")` then `pop(1)` the
sequence is empty, yet key 1 remains in the index with an empty bucket —
whereas `pop()` in the same situation erases the key.  This theorem evaluates
both operations at that failing input. -/
theorem C1_pop_key_keeps_empty_bucket :
    popKeyOp (pushOp (KVState.emptyState Nat String) 1 "a") 1 =
      .ok ⟨[], [(1, [])], 1⟩ ∧
    popOp (pushOp (KVState.emptyState Nat String) 1 "a") =
      .ok ⟨[], [], 1⟩ := ⟨rfl, rfl⟩

/-- C2: the spec claims `pop(key)`, `move_to_back(key)`, `first(key)`,
`last(key)` raise KeyNotFound exactly when `count(key) == 0`.  The code tests
`A->contains(key)` instead, and `pop(key)` leaves an emptied bucket behind
(C1), so in the state after `push(1, "a"); pop(1)` we have `count(1) = 0`
yet `move_to_back(1)` succeeds silently and a second `pop(1)` runs
`bucket.front()` on an empty `std::list` — undefined behaviour, not a
KeyNotFound throw. -/
theorem C2_key_not_found_not_raised :
    popKeyOp (pushOp (KVState.emptyState Nat String) 1 "a") 1 =
      .ok ⟨[], [(1, [])], 1⟩ ∧
    countOp (⟨[], [(1, [])], 1⟩ : KVState Nat String) 1 = 0 ∧
    moveToBackOp (⟨[], [(1, [])], 1⟩ : KVState Nat String) 1 = .ok ⟨[], [(1, [])], 1⟩ ∧
    popKeyOp (⟨[], [(1, [])], 1⟩ : KVState Nat String) 1 = .error .undef :=
  ⟨rfl, rfl, rfl, rfl⟩

/-- C3: strong exception safety.  If a value/key copy or an allocation throws
at any point of `push` (inside `copy()`, `B->emplace_back`, `(*A)[key]`, or
`bucket.emplace_back`), the call reports the throw and `size()`, `front()`,
`back()` and the full entry iteration order are exactly as before the call.
For `move_to_back`, the relocation is `std::list::splice` (no value is
constructed or assigned, it cannot throw); the only possible value-copy throw
is inside `copy()`, and whenever the call throws the state is unchanged. -/
theorem C3_strong_exception_safety :
    (∀ (s : KVState K V) (k : K) (v : V) (needCopy : Bool) (fp : PushFail),
      (pushFallible s k v needCopy (some fp)).2 = true ∧
      sizeOp (pushFallible s k v needCopy (some fp)).1 = sizeOp s ∧
      frontOp (pushFallible s k v needCopy (some fp)).1 = frontOp s ∧
      backOp (pushFallible s k v needCopy (some fp)).1 = backOp s ∧
      obsEntries (pushFallible s k v needCopy (some fp)).1 = obsEntries s) ∧
    (∀ (s : KVState K V) (k : K) (copyThrows : Bool),
      (mtbFallible s k copyThrows).2 = true → (mtbFallible s k copyThrows).1 = s) := by
  constructor
  · intro s k v needCopy fp
    rcases @pushFallible_strong K V _ _ s k v needCopy fp with ⟨hthrew, hobs⟩
    rcases obs_eq_imp hobs with ⟨hsz, hfr, hbk⟩
    exact ⟨hthrew, hsz, hfr, hbk, hobs⟩
  · intro s k copyThrows hthrew
    exact mtbFallible_strong hthrew

/-- Witness for C3 at a concrete input: `move_to_back(1)` on a one-entry
container with a copy failure injected throws and leaves the state intact. -/
theorem C3_strong_exception_safety_witness :
    (mtbFallible (pushOp (KVState.emptyState Nat Nat) 1 5) 1 true).2 = true ∧
    (mtbFallible (pushOp (KVState.emptyState Nat Nat) 1 5) 1 true).1 =
      pushOp (KVState.emptyState Nat Nat) 1 5 :=
  ⟨by decide, C3_strong_exception_safety.2
    (pushOp (KVState.emptyState Nat Nat) 1 5) 1 true (by decide)⟩

/-- C4: copy-on-write independence.  For `a` freshly built (sole owner, flag
clear) and `b` copy-constructed from it, any mutating call (`push`, `pop()`,
`pop(key)`, `move_to_back`) on either instance leaves the other's observed
state the very heap cell it was — mutation forks first because the state's
use count is 2. -/
theorem C4_cow_independence (s : KVState K V) (op : MutOp K V) :
    readState (mutW (copyCtorW (mkWorldA s) 0) 1 op) 0 = some s ∧
    readState (mutW (copyCtorW (mkWorldA s) 0) 0 op) 1 = some s := by
  have hctor : copyCtorW (mkWorldA s) 0 =
      (⟨[s], [⟨0, false⟩, ⟨0, false⟩]⟩ : World K V) := rfl
  rw [hctor]
  constructor
  · rw [mutW]
    simp only [show readState (⟨[s], [⟨0, false⟩, ⟨0, false⟩]⟩ : World K V) 1 = some s from rfl]
    by_cases hpre : precondOk s op = true
    · rw [if_pos hpre]
      have hguard : copyGuard (⟨[s], [⟨0, false⟩, ⟨0, false⟩]⟩ : World K V) 1 =
          (⟨[s, rebuild s], [⟨0, false⟩, ⟨1, false⟩]⟩ : World K V) := rfl
      rw [hguard]
      have hfin : mutCore (⟨[s, rebuild s], [⟨0, false⟩, ⟨1, false⟩]⟩ : World K V) 1 op
          = match applyMutOp (rebuild s) op with
            | some st2 => (⟨[s, st2], [⟨0, false⟩, ⟨1, false⟩]⟩ : World K V)
            | none => (⟨[s, rebuild s], [⟨0, false⟩, ⟨1, false⟩]⟩ : World K V) := rfl
      rw [hfin]
      cases happ : applyMutOp (rebuild s) op with
      | some st2 => rfl
      | none => rfl
    · rw [if_neg hpre]
      rfl
  · rw [mutW]
    simp only [show readState (⟨[s], [⟨0, false⟩, ⟨0, false⟩]⟩ : World K V) 0 = some s from rfl]
    by_cases hpre : precondOk s op = true
    · rw [if_pos hpre]
      have hguard : copyGuard (⟨[s], [⟨0, false⟩, ⟨0, false⟩]⟩ : World K V) 0 =
          (⟨[s, rebuild s], [⟨1, false⟩, ⟨0, false⟩]⟩ : World K V) := rfl
      rw [hguard]
      have hfin : mutCore (⟨[s, rebuild s], [⟨1, false⟩, ⟨0, false⟩]⟩ : World K V) 0 op
          = match applyMutOp (rebuild s) op with
            | some st2 => (⟨[s, st2], [⟨1, false⟩, ⟨0, false⟩]⟩ : World K V)
            | none => (⟨[s, rebuild s], [⟨1, false⟩, ⟨0, false⟩]⟩ : World K V) := rfl
      rw [hfin]
      cases happ : applyMutOp (rebuild s) op with
      | some st2 => rfl
      | none => rfl
    · rw [if_neg hpre]
      rfl

/-- C5: fork on aliasing exposure.  Take `a` sole owner of a non-empty state,
call `a.front()` (which sets `must_copy` and returns a reference into `a`'s
cell), copy-construct `b` from `a`: because the flag is inherited, `b` forks a
private deep rebuild at copy time.  Mutating through the reference afterwards
changes only `a`'s cell; `b` still observes the rebuild, whose observable
entries equal `a`'s pre-mutation entries. -/
theorem C5_alias_fork (s : KVState K V) (v2 : V) (p : Nat) (k : K)
    (halias : (frontW (mkWorldA s) 0).2 = some (p, k)) :
    readState (writeFrontAlias (copyCtorW (frontW (mkWorldA s) 0).1 0) p v2) 1 =
      some (rebuild s) ∧
    obsEntries (rebuild s) = obsEntries s ∧
    readState (writeFrontAlias (copyCtorW (frontW (mkWorldA s) 0).1 0) p v2) 0 =
      some (setFrontVal s v2) := by
  obtain ⟨seq, idx, n⟩ := s
  cases seq with
  | nil =>
    exact Option.noConfusion (show (none : Option (Nat × K)) = some (p, k) from halias)
  | cons e rest =>
    have h2 : some ((0 : Nat), e.key) = some (p, k) := halias
    rw [Option.some_inj] at h2
    rw [Prod.mk.injEq] at h2
    obtain ⟨hp, hk⟩ := h2
    rw [← hp]
    have hfw : frontW (mkWorldA (⟨e :: rest, idx, n⟩ : KVState K V)) 0 =
        (⟨[⟨e :: rest, idx, n⟩], [⟨0, true⟩]⟩, some (0, e.key)) := rfl
    rw [hfw]
    have hcc : copyCtorW (⟨[⟨e :: rest, idx, n⟩], [⟨0, true⟩]⟩ : World K V) 0 =
        ⟨[⟨e :: rest, idx, n⟩, rebuild ⟨e :: rest, idx, n⟩], [⟨0, true⟩, ⟨1, false⟩]⟩ := rfl
    rw [hcc]
    have hwr : writeFrontAlias (⟨[⟨e :: rest, idx, n⟩, rebuild ⟨e :: rest, idx, n⟩],
        [⟨0, true⟩, ⟨1, false⟩]⟩ : World K V) 0 v2 =
        ⟨[setFrontVal ⟨e :: rest, idx, n⟩ v2, rebuild ⟨e :: rest, idx, n⟩],
          [⟨0, true⟩, ⟨1, false⟩]⟩ := rfl
    rw [hwr]
    exact ⟨rfl, obsEntries_rebuild, rfl⟩

/-- Witness for C5 at a concrete input: one entry `(1, 5)`, the alias points
at cell 0, and writing `9` through it leaves `b`'s view at `(1, 5)`. -/
theorem C5_alias_fork_witness :
    readState (writeFrontAlias (copyCtorW
        (frontW (mkWorldA (pushOp (KVState.emptyState Nat Nat) 1 5)) 0).1 0) 0 9) 1 =
      some (rebuild (pushOp (KVState.emptyState Nat Nat) 1 5)) ∧
    obsEntries (rebuild (pushOp (KVState.emptyState Nat Nat) 1 5)) =
      obsEntries (pushOp (KVState.emptyState Nat Nat) 1 5) ∧
    readState (writeFrontAlias (copyCtorW
        (frontW (mkWorldA (pushOp (KVState.emptyState Nat Nat) 1 5)) 0).1 0) 0 9) 0 =
      some (setFrontVal (pushOp (KVState.emptyState Nat Nat) 1 5) 9) :=
  C5_alias_fork (pushOp (KVState.emptyState Nat Nat) 1 5) 9 0 1 (by decide)

/-- C6 counterexample: the claim says the key iterator follows first-seen
order, so after `push(2, x)` then `push(1, y)` it should yield `[2, 1]`; the
key index is a `std::map`, so the iterator actually yields `[1, 2]`. -/
theorem C6_first_seen_order_counterexample :
    kIterKeys (pushAll (KVState.emptyState Nat String) [(2, "x"), (1, "y")])
      = [1, 2] ∧
    kIterKeys (pushAll (KVState.emptyState Nat String) [(2, "x"), (1, "y")])
      ≠ [2, 1] := ⟨rfl, by decide⟩

/-- C6 (amended): for a container built by pushes, iterating `k_begin()` to
`k_end()` visits exactly the distinct keys of the container, each once, in
strictly increasing key order (the sorted order of `std::map`), not
first-occurrence order. -/
theorem C6_key_iterator_sorted_distinct (l : List (K × V)) :
    List.Pairwise (· < ·)
      (kIterKeys (pushAll (KVState.emptyState K V) l)) ∧
    ∀ k, k ∈ kIterKeys (pushAll (KVState.emptyState K V) l) ↔
      k ∈ l.map Prod.fst :=
  ⟨(WF_pushAll WF_emptyState l).1, fun _ => mem_kIterKeys_pushAll⟩

/-- C7: along every run of public operations from the empty container that
avoids undefined behaviour, the sum of `count(k)` over the keys visited by the
key iterator equals `size()`. -/
theorem C7_sum_counts_eq_size (ops : List (KOp K V)) (s : KVState K V)
    (hrun : runFrom (KVState.emptyState K V) ops = some s) :
    sumCounts s = sizeOp s :=
  sumCounts_eq_size_of_WF (WF_runFrom WF_emptyState hrun)

/-- Witness for C7: a run exercising push, `pop(key)`, `move_to_back`,
`copy()` and `pop()`. -/
theorem C7_sum_counts_eq_size_witness :
    sumCounts (⟨[⟨1, 2, 20⟩, ⟨2, 3, 40⟩], [(2, [1]), (3, [2])], 3⟩ : KVState Nat Nat) =
      sizeOp (⟨[⟨1, 2, 20⟩, ⟨2, 3, 40⟩], [(2, [1]), (3, [2])], 3⟩ : KVState Nat Nat) :=
  C7_sum_counts_eq_size
    [KOp.pushK 1 10, KOp.pushK 2 20, KOp.pushK 1 30, KOp.popKeyK 1, KOp.mtbK 2,
     KOp.copyK, KOp.popK, KOp.pushK 3 40]
    (⟨[⟨1, 2, 20⟩, ⟨2, 3, 40⟩], [(2, [1]), (3, [2])], 3⟩ : KVState Nat Nat) (by decide)

/-- C8: global FIFO.  Pushing `N` entries with pairwise distinct keys into an
empty container and then running `front(); pop()` `N` times observes the keys
in exactly the original push order. -/
theorem C8_fifo_order (ks : List K) (vs : List V) (hnd : ks.Nodup)
    (hlen : ks.length = vs.length) :
    popKeys (pushAll (KVState.emptyState K V) (ks.zip vs)) ks.length = some ks := by
  have hw := WF_pushAll WF_emptyState (ks.zip vs)
  have hkeys : (pushAll (KVState.emptyState K V) (ks.zip vs)).seq.map
      Entry.key = ks := by
    rw [seq_keys_pushAll, List.map_fst_zip]
    exact le_of_eq hlen
  have hlen2 : (pushAll (KVState.emptyState K V) (ks.zip vs)).seq.length
      = ks.length := by
    have h3 := congrArg List.length hkeys
    rwa [List.length_map] at h3
  rw [popKeys_drain hw hlen2, hkeys]

/-- Witness for C8: pushes `(3, 30), (1, 10), (2, 20)` drain as `[3, 1, 2]`. -/
theorem C8_fifo_order_witness :
    popKeys (pushAll (KVState.emptyState Nat Nat) ([3, 1, 2].zip [30, 10, 20]))
      ([3, 1, 2] : List Nat).length = some [3, 1, 2] :=
  C8_fifo_order [3, 1, 2] [30, 10, 20] (by decide) (by decide)

/-- C9: `move_to_back(k)` on a well-formed container with `k` in the index
succeeds and rearranges the sequence into: all entries whose key is not `k`,
in their original relative order, followed by all entries of `k`, in their
original relative order — no key or value is changed and the index is left as
it was. -/
theorem C9_move_to_back_order (s : KVState K V) (k : K) (bucket : List Nat)
    (hw : WF s) (hfind : mapFind? s.idx k = some bucket) :
    moveToBackOp s k = .ok
      ⟨s.seq.filter (fun e => decide (¬ e.key = k)) ++
         s.seq.filter (fun e => decide (e.key = k)), s.idx, s.nextId⟩ :=
  (moveToBackOp_ok hw hfind).1

/-- Witness for C9: the spec's concrete scenario — push `(1, "a")`,
`(2, "b")`, `(1, "c")`, then `move_to_back(1)` yields the sequence
`(2, "b"), (1, "a"), (1, "c")`. -/
theorem C9_move_to_back_order_witness :
    moveToBackOp (pushAll (KVState.emptyState Nat String)
        [(1, "a"), (2, "b"), (1, "c")]) 1 = .ok
      ⟨(pushAll (KVState.emptyState Nat String)
          [(1, "a"), (2, "b"), (1, "c")]).seq.filter (fun e => decide (¬ e.key = 1)) ++
        (pushAll (KVState.emptyState Nat String)
          [(1, "a"), (2, "b"), (1, "c")]).seq.filter (fun e => decide (e.key = 1)),
       (pushAll (KVState.emptyState Nat String)
          [(1, "a"), (2, "b"), (1, "c")]).idx,
       (pushAll (KVState.emptyState Nat String)
          [(1, "a"), (2, "b"), (1, "c")]).nextId⟩ :=
  C9_move_to_back_order
    (pushAll (KVState.emptyState Nat String) [(1, "a"), (2, "b"), (1, "c")])
    1 [0, 2] (by decide) (by decide)

/-- C10: the move constructor swaps the default-constructed (null)
`shared_ptr`s of the new object with the source's, so the moved-from instance
holds null `A` and `B` whatever the flag was, and the (noexcept) `size()`,
`empty()` and `count(key)` then dereference a null pointer — undefined,
modelled as `none` on every heap.  The new instance keeps the source's former
pointers only when the inherited flag is clear; when it is set (the source
had exposed a mutable reference), the trailing `if (must_copy) copy()`
immediately re-forks the new instance onto a fresh deep rebuild. -/
theorem C10_moved_from_null (heap : List (KVState K V)) (i : RawInst) (k : K) :
    (moveCtorRaw heap i).1.A = none ∧
    (moveCtorRaw heap i).1.B = none ∧
    (∀ heap2 : List (KVState K V),
      sizeRaw heap2 (moveCtorRaw heap i).1 = none ∧
      emptyRaw heap2 (moveCtorRaw heap i).1 = none ∧
      countRaw heap2 (moveCtorRaw heap i).1 k = none) ∧
    (i.mustCopy = false →
      (moveCtorRaw heap i).2 = some (⟨i.A, i.B, false⟩, heap)) ∧
    (∀ (p : Nat) (st : KVState K V), i.mustCopy = true → i.B = some p →
      heap[p]? = some st →
      (moveCtorRaw heap i).2 =
        some (⟨some heap.length, some heap.length, false⟩, heap ++ [rebuild st])) := by
  refine ⟨rfl, rfl, fun heap2 => ⟨rfl, rfl, rfl⟩, ?_, ?_⟩
  · intro hflag
    show (if i.mustCopy = true then _ else _) = _
    rw [hflag]
    simp only [Bool.false_eq_true, if_false]
  · intro p st hflag hB hheap
    show (if i.mustCopy = true then _ else _) = _
    rw [hflag, if_pos rfl, hB]
    simp only [hheap]

/-- Witness for C10 at a concrete input: moving from a flagged one-entry
source leaves the source null (observations undefined) and re-forks the new
instance onto a fresh rebuild at address 1. -/
theorem C10_moved_from_null_witness :
    (moveCtorRaw [pushOp (KVState.emptyState Nat Nat) 1 5]
      (⟨some 0, some 0, true⟩ : RawInst)).1.A = none ∧
    sizeRaw [pushOp (KVState.emptyState Nat Nat) 1 5]
      (moveCtorRaw [pushOp (KVState.emptyState Nat Nat) 1 5]
        (⟨some 0, some 0, true⟩ : RawInst)).1 = none ∧
    (moveCtorRaw [pushOp (KVState.emptyState Nat Nat) 1 5]
      (⟨some 0, some 0, true⟩ : RawInst)).2 =
      some (⟨some 1, some 1, false⟩,
        [pushOp (KVState.emptyState Nat Nat) 1 5,
         rebuild (pushOp (KVState.emptyState Nat Nat) 1 5)]) :=
  ⟨(C10_moved_from_null [pushOp (KVState.emptyState Nat Nat) 1 5]
      (⟨some 0, some 0, true⟩ : RawInst) 1).1,
   ((C10_moved_from_null [pushOp (KVState.emptyState Nat Nat) 1 5]
      (⟨some 0, some 0, true⟩ : RawInst) 1).2.2.1
        [pushOp (KVState.emptyState Nat Nat) 1 5]).1,
   (C10_moved_from_null [pushOp (KVState.emptyState Nat Nat) 1 5]
      (⟨some 0, some 0, true⟩ : RawInst) 1).2.2.2.2 0
        (pushOp (KVState.emptyState Nat Nat) 1 5) rfl rfl rfl⟩

end KvModel
